import Mathlib

set_option maxHeartbeats 1000000

/-!
Shallow embedding of `src/viz.py` (loss-landscape interpolation between two
model checkpoints).  Tensors are flattened lists of exact scalars; the
script's floating-point arithmetic is modelled by exact arithmetic in a
linear ordered field (`ℚ` for concrete evaluation, `ℝ` where the
cross-entropy criterion needs `exp`/`log`).  A data loader is a list of
batches, each batch a pair of an input list and an integer-label list,
mirroring the `(inputs, targets)` pairs yielded by the torch loaders.
-/

/-- A model parameter: a flattened tensor of scalar values (`.data`) together
with its gradient-tracking flag, as mutated by `interpolate` in `viz.py`. -/
structure Param (K : Type) where
  data : List K
  requires_grad : Bool
deriving DecidableEq

/-- A model in the sense of `viz.py`: an ordered sequence of parameters (what
`model.parameters()` yields), the non-parameter state (buffers such as
batch-norm running statistics, abstracted as `B`), and the architecture's
forward computation, which maps current parameters and buffers plus one
input to a vector of class scores.  `copy.deepcopy` is value copying, which
in this pure embedding is the identity on the structure value. -/
structure Model (ι K B : Type) where
  params : List (Param K)
  buffers : B
  arch : List (Param K) → B → ι → List K

/-- The forward pass of a model on one input (`model(inputs)` applied
example-wise). -/
def Model.apply {ι K B : Type} (m : Model ι K B) (x : ι) : List K :=
  m.arch m.params m.buffers x

/-- The parameter at position `i` of a model's parameter sequence (junk
parameter if out of range). -/
def paramAt {ι K B : Type} (m : Model ι K B) (i : ℕ) : Param K :=
  m.params.getD i ⟨[], true⟩

/-- Scalar `j` of parameter `i` of a model (junk `0` if out of range). -/
def paramVal {ι K B : Type} [Zero K] (m : Model ι K B) (i j : ℕ) : K :=
  (paramAt m i).data.getD j 0

/-- Embedding of the loop body of `interpolate` (`viz.py` lines 59-61) in
the equal-tensor-size case: walk the deep copy's parameter list and
`model2`'s parameter list in parallel (Python `zip` stops at the shorter
list, leaving the remaining parameters of the copy untouched); each visited
parameter gets `requires_grad = False` and data
`alpha * param1.data + (1 - alpha) * param2.data` elementwise.  When every
zipped pair has tensors of equal sizes — the case the script exercises,
since its two models share one architecture — this is exactly the torch
expression; the full torch semantics with broadcasting and the
size-mismatch error path is `tensorComb`/`interpParamsT` below, which
restricts to this function on equal sizes
(`interpParamsT_eq_of_sizes_eq`). -/
def interpParams {K : Type} [Field K] (alpha : K) :
    List (Param K) → List (Param K) → List (Param K)
  | [], _ => []
  | p1 :: ps1, [] => p1 :: ps1
  | p1 :: ps1, p2 :: ps2 =>
      { data := List.zipWith (fun x1 x2 => alpha * x1 + (1 - alpha) * x2) p1.data p2.data,
        requires_grad := false } :: interpParams alpha ps1 ps2

/-- Embedding of `interpolate(model1, model2, alpha)` (`viz.py` lines 56-63):
deep-copy `model1` (buffers and architecture included), then overwrite the
copy's parameters by the zipped convex combination with `model2`'s
parameters. -/
def interpolate {ι K B : Type} [Field K] (model1 model2 : Model ι K B) (alpha : K) :
    Model ι K B :=
  { model1 with params := interpParams alpha model1.params model2.params }

/-- One call of `interpolate` viewed with its calling context: the state of
the two source models after the call together with the returned model.  The
sources are read-only in the body (only the deep copy is mutated), so the
call leaves them as they were. -/
def interpolateCall {ι K B : Type} [Field K] (model1 model2 : Model ι K B) (alpha : K) :
    (Model ι K B × Model ι K B) × Model ι K B :=
  ((model1, model2), interpolate model1 model2 alpha)

/-- Torch semantics of the tensor expression
`alpha * param1.data + (1 - alpha) * param2.data` on flattened tensors of
arbitrary sizes: equal sizes combine elementwise; a size-1 tensor broadcasts
across the other operand; any other size pair raises a size-mismatch
RuntimeError, modelled as `none`.  On equal sizes this agrees with the
`List.zipWith` used by `interpParams`. -/
def tensorComb {K : Type} [Field K] (alpha : K) (d1 d2 : List K) : Option (List K) :=
  if d1.length = d2.length then
    some (List.zipWith (fun x1 x2 => alpha * x1 + (1 - alpha) * x2) d1 d2)
  else if d1.length = 1 then
    some (d2.map (fun x2 => alpha * d1.headD 0 + (1 - alpha) * x2))
  else if d2.length = 1 then
    some (d1.map (fun x1 => alpha * x1 + (1 - alpha) * d2.headD 0))
  else none

/-- The `interpolate` loop (`viz.py` lines 59-61) under the full torch tensor
semantics `tensorComb`: the zipped pairs are combined in order and a
size-mismatch error in any pair aborts the whole call (`none`); as in
`interpParams`, the parameters of the copy beyond the zipped range are left
untouched. -/
def interpParamsT {K : Type} [Field K] (alpha : K) :
    List (Param K) → List (Param K) → Option (List (Param K))
  | [], _ => some []
  | p1 :: ps1, [] => some (p1 :: ps1)
  | p1 :: ps1, p2 :: ps2 =>
      (tensorComb alpha p1.data p2.data).bind (fun d =>
        (interpParamsT alpha ps1 ps2).map
          (fun rest => { data := d, requires_grad := false } :: rest))

/-- `interpolate(model1, model2, alpha)` under the full torch tensor
semantics: the deep copy's parameters are overwritten pair by pair via
`tensorComb`; a size-mismatch RuntimeError propagates out of the call
(`none`), otherwise the interpolated model is returned. -/
def interpolateT {ι K B : Type} [Field K] (model1 model2 : Model ι K B) (alpha : K) :
    Option (Model ι K B) :=
  (interpParamsT alpha model1.params model2.params).map
    (fun ps => { model1 with params := ps })

/-- Embedding of `np.linspace(start, stop, num)` with the default
`endpoint=True`: `num` evenly spaced values `start + i * step` with
`step = (stop - start) / (num - 1)`.  Over an exact field the final-entry
overwrite `y[num-1] = stop` that numpy performs is the identity, since
`start + (num-1) * step = stop` exactly. -/
def linspace {K : Type} [Field K] (start stop : K) (num : ℕ) : List K :=
  if num = 1 then [start]
  else
    (List.range num).map (fun i : ℕ => start + (i : K) * ((stop - start) / ((num - 1 : ℕ) : K)))

/-- Helper for `argmaxIdx`: fold over the remaining scores keeping the index
and value of the best score seen so far; a strictly larger score replaces
it, so ties keep the earliest index. -/
def argmaxAux {K : Type} [LinearOrder K] : ℕ → K → ℕ → List K → ℕ
  | bi, _, _, [] => bi
  | bi, bv, i, x :: xs => if bv < x then argmaxAux i x (i + 1) xs else argmaxAux bi bv (i + 1) xs

/-- Index of the single highest score in one example's output row: the
semantics of `output.topk(1, 1, True, True)` used by `accuracy` in `viz.py`
(lines 40-53) at `topk=(1,)`. -/
def argmaxIdx {K : Type} [LinearOrder K] : List K → ℕ
  | [] => 0
  | x :: xs => argmaxAux 0 x 1 xs

/-- Embedding of `accuracy(output, target, topk=(1,))[0]` (`viz.py` lines
40-53): take the top-1 class index of every example row (`pred`), compare it
with the corresponding target label (`correct`), and sum the matches to a
scalar count. -/
def accuracyTop1 {K : Type} [LinearOrder K] (output : List (List K)) (target : List ℕ) : ℕ :=
  ((output.map argmaxIdx).zip target).countP (fun p => p.1 == p.2)

/-- Embedding of the loop of `test` (`viz.py` lines 126-138) with explicit
accumulators `total_loss`, `total_acc`, `total`.  Before each batch the
accumulated sample count is checked against `samples` (`if total >= samples:
break`); otherwise the batch is processed in full: forward pass, criterion
value, top-1 correct count, and `total += targets.size(0)`. -/
def testLoop {ι K : Type} [LinearOrderedField K] (model : ι → List K)
    (criterion : List (List K) → List ℕ → K) (samples : ℤ) :
    List (List ι × List ℕ) → K → ℕ → ℕ → K × ℕ × ℕ
  | [], total_loss, total_acc, total => (total_loss, total_acc, total)
  | (inputs, targets) :: rest, total_loss, total_acc, total =>
      if samples ≤ (total : ℤ) then (total_loss, total_acc, total)
      else
        testLoop model criterion samples rest
          (total_loss + criterion (inputs.map model) targets)
          (total_acc + accuracyTop1 (inputs.map model) targets)
          (total + targets.length)

/-- Embedding of `test(loader, model, criterion, samples)` (`viz.py` lines
119-140).  It returns `(total_loss / total, 100 * total_acc / total)`; when
`total = 0` the Python division raises `ZeroDivisionError`, modelled as
`none`. -/
def test {ι K : Type} [LinearOrderedField K] (loader : List (List ι × List ℕ))
    (model : ι → List K) (criterion : List (List K) → List ℕ → K) (samples : ℤ) :
    Option (K × K) :=
  let r := testLoop model criterion samples loader 0 0 0
  if r.2.2 = 0 then none
  else some (r.1 / (r.2.2 : K), 100 * (r.2.1 : K) / (r.2.2 : K))

/-- The batches of `loader` that the `test` loop actually processes when the
accumulated sample count starts at `total`: the loop stops at the first
batch reached with the count already at or past `samples`. -/
def procBatches {ι : Type} (samples : ℤ) :
    ℕ → List (List ι × List ℕ) → List (List ι × List ℕ)
  | _, [] => []
  | total, b :: rest =>
      if samples ≤ (total : ℤ) then []
      else b :: procBatches samples (total + b.2.length) rest

/-- Total number of samples in a list of batches (sum of `targets.size(0)`). -/
def sizeSum {ι : Type} (l : List (List ι × List ℕ)) : ℕ :=
  (l.map (fun b => b.2.length)).sum

/-- Sum of the per-batch criterion values over a list of batches. -/
def lossSum {ι K : Type} [LinearOrderedField K] (model : ι → List K)
    (criterion : List (List K) → List ℕ → K) (l : List (List ι × List ℕ)) : K :=
  (l.map (fun b => criterion (b.1.map model) b.2)).sum

/-- Sum of the per-batch top-1 correct counts over a list of batches. -/
def accSum {ι K : Type} [LinearOrderedField K] (model : ι → List K)
    (l : List (List ι × List ℕ)) : ℕ :=
  (l.map (fun b => accuracyTop1 (b.1.map model) b.2)).sum

/-- Embedding of `nn.CrossEntropyLoss()` with its default mean reduction:
for logits `z` and class label `t` the per-example loss is
`log (Σ_j exp z_j) - z_t`, and the batch value is the mean over the batch. -/
noncomputable def crossEntropyLoss (outputs : List (List ℝ)) (targets : List ℕ) : ℝ :=
  (((outputs.zip targets).map
      (fun p => Real.log ((p.1.map Real.exp).sum) - p.1.getD p.2 0)).sum) /
    (targets.length : ℝ)

/-- Embedding of the sweep loop of `visualize` (`viz.py` lines 76-87): for
each coefficient in order, build the interpolant, evaluate it on the test
loader and then on the train loader with the cross-entropy criterion, and
collect the four metric sequences in coefficient order.  A
`ZeroDivisionError` in either evaluation aborts the program, modelled by
`none`. -/
noncomputable def sweepAux {ι B : Type} (model1 model2 : Model ι ℝ B)
    (testloader trainloader : List (List ι × List ℕ)) (test_samples : ℤ) :
    List ℝ → Option (List ℝ × List ℝ × List ℝ × List ℝ)
  | [] => some ([], [], [], [])
  | alpha :: rest =>
      let interpolant := interpolate model1 model2 alpha
      (test testloader (Model.apply interpolant) crossEntropyLoss test_samples).bind (fun te =>
        (test trainloader (Model.apply interpolant) crossEntropyLoss test_samples).bind (fun tr =>
          (sweepAux model1 model2 testloader trainloader test_samples rest).bind (fun r =>
            some (te.1 :: r.1, te.2 :: r.2.1, tr.1 :: r.2.2.1, tr.2 :: r.2.2.2))))

/-- Embedding of `visualize` (`viz.py` lines 66-96) up to its reporting side
effects: sweep the coefficient sequence `np.linspace(-1, 2, num=viz_samples)`
and return the four metric sequences `(test_losses, test_acces,
train_losses, train_acces)`. -/
noncomputable def visualize {ι B : Type} (model1 model2 : Model ι ℝ B)
    (testloader trainloader : List (List ι × List ℕ))
    (viz_samples : ℕ) (test_samples : ℤ) :
    Option (List ℝ × List ℝ × List ℝ × List ℝ) :=
  sweepAux model1 model2 testloader trainloader test_samples
    (linspace (-1) 2 viz_samples)

/-- The mapping written to `<output-dir>/raw_arrays` (`viz.py` lines 89-96),
keyed exactly as in the source. -/
def rawArrays (test_losses test_acces train_losses train_acces : List ℝ) :
    List (String × List ℝ) :=
  [("test loss", test_losses), ("test accuracy", test_acces),
   ("train loss", train_losses), ("train accuracy", train_acces)]

/-- Modelled from the spec: the external pickle collaborator is not part of
this repository; per the spec's round-trip consistency requirement,
deserializing the serialized mapping reproduces the mapping itself. -/
def pickleRoundTrip (d : List (String × List ℝ)) : List (String × List ℝ) := d

/-- The two curves of the loss chart (`viz.py` lines 98-99): train losses
then test losses, each against the coefficient axis. -/
def plottedLossCurves (alphas train_losses test_losses : List ℝ) :
    List (List ℝ × List ℝ) :=
  [(alphas, train_losses), (alphas, test_losses)]

/-- The two curves of the accuracy chart (`viz.py` lines 109-110): train
accuracies then test accuracies, each against the coefficient axis. -/
def plottedAccCurves (alphas train_acces test_acces : List ℝ) :
    List (List ℝ × List ℝ) :=
  [(alphas, train_acces), (alphas, test_acces)]

/-- Concrete one-batch loader used to evaluate the embedding: one input with
label `0`. -/
def unitLoader : List (List Unit × List ℕ) := [([()], [0])]

/-- Concrete single-logit scoring function used to evaluate the embedding
over `ℝ`. -/
def zeroScore : Unit → List ℝ := fun _ => [0]

/-- Concrete model over `ℝ` whose architecture always outputs the single
logit `0`. -/
def zeroModelR : Model Unit ℝ Unit := ⟨[], (), fun _ _ _ => [0]⟩

/-- First concrete model over `ℚ` used to evaluate `interpolate`. -/
def mA : Model Unit ℚ Unit := ⟨[⟨[1, 3], true⟩, ⟨[5], true⟩], (), fun _ _ _ => []⟩

/-- Second concrete model over `ℚ` used to evaluate `interpolate`. -/
def mB : Model Unit ℚ Unit := ⟨[⟨[2, 4], true⟩, ⟨[7], false⟩], (), fun _ _ _ => []⟩

/-- A concrete model over `ℚ` with a single parameter, used to evaluate
`interpolate` on sources with different parameter counts. -/
def mShort : Model Unit ℚ Unit := ⟨[⟨[10], false⟩], (), fun _ _ _ => []⟩

/-- A concrete model over `ℚ` with a single parameter of size `3`, whose
data is broadcast-incompatible with `mA`'s first parameter (size `2`). -/
def mWide : Model Unit ℚ Unit := ⟨[⟨[2, 4, 6], true⟩], (), fun _ _ _ => []⟩

/-- A concrete model over `ℚ` with buffer state `42`, used to evaluate the
buffer behaviour of `interpolate`. -/
def mABuf : Model Unit ℚ ℕ := ⟨[⟨[1], true⟩], 42, fun _ _ _ => []⟩

/-- A concrete model over `ℚ` with buffer state `7`, used to evaluate the
buffer behaviour of `interpolate`. -/
def mBBuf : Model Unit ℚ ℕ := ⟨[⟨[2], true⟩], 7, fun _ _ _ => []⟩

/-! Helper lemmas about the embedded definitions. -/

lemma getD_zipWith_comb {K : Type} [Field K] (a : K) (l1 l2 : List K) (j : ℕ)
    (h1 : j < l1.length) (h2 : j < l2.length) :
    (List.zipWith (fun x1 x2 => a * x1 + (1 - a) * x2) l1 l2).getD j 0 =
      a * l1.getD j 0 + (1 - a) * l2.getD j 0 := by
  induction l1 generalizing l2 j with
  | nil => simp at h1
  | cons x l1 ih =>
    cases l2 with
    | nil => simp at h2
    | cons y l2 =>
      cases j with
      | zero => simp
      | succ j => simpa using ih l2 j (by simpa using h1) (by simpa using h2)

lemma interpParams_length {K : Type} [Field K] (a : K) (ps1 ps2 : List (Param K)) :
    (interpParams a ps1 ps2).length = ps1.length := by
  induction ps1 generalizing ps2 with
  | nil => simp [interpParams]
  | cons p ps ih =>
    cases ps2 with
    | nil => simp [interpParams]
    | cons q qs => simp [interpParams, ih]

lemma interpParams_getD_lt {K : Type} [Field K] (a : K) (ps1 ps2 : List (Param K)) (i : ℕ)
    (h1 : i < ps1.length) (h2 : i < ps2.length) :
    (interpParams a ps1 ps2).getD i ⟨[], true⟩ =
      { data := List.zipWith (fun x1 x2 => a * x1 + (1 - a) * x2)
          ((ps1.getD i ⟨[], true⟩).data) ((ps2.getD i ⟨[], true⟩).data),
        requires_grad := false } := by
  induction ps1 generalizing ps2 i with
  | nil => simp at h1
  | cons p ps ih =>
    cases ps2 with
    | nil => simp at h2
    | cons q qs =>
      cases i with
      | zero => simp [interpParams]
      | succ i => simpa [interpParams] using ih qs i (by simpa using h1) (by simpa using h2)

lemma interpParams_getD_ge {K : Type} [Field K] (a : K) (ps1 ps2 : List (Param K)) (i : ℕ)
    (h2 : ps2.length ≤ i) :
    (interpParams a ps1 ps2).getD i ⟨[], true⟩ = ps1.getD i ⟨[], true⟩ := by
  induction ps1 generalizing ps2 i with
  | nil => simp [interpParams]
  | cons p ps ih =>
    cases ps2 with
    | nil => simp [interpParams]
    | cons q qs =>
      cases i with
      | zero => simp at h2
      | succ i => simpa [interpParams] using ih qs i (by simpa using h2)

lemma interpParamsT_none_iff {K : Type} [Field K] (alpha : K) :
    ∀ ps1 ps2 : List (Param K),
      interpParamsT alpha ps1 ps2 = none ↔
        ∃ i, i < min ps1.length ps2.length ∧
          tensorComb alpha (ps1.getD i ⟨[], true⟩).data (ps2.getD i ⟨[], true⟩).data =
            none := by
  intro ps1
  induction ps1 with
  | nil => intro ps2; simp [interpParamsT]
  | cons p1 ps1 ih =>
    intro ps2
    cases ps2 with
    | nil => simp [interpParamsT]
    | cons p2 ps2 =>
      rw [interpParamsT]
      cases htc : tensorComb alpha p1.data p2.data with
      | none =>
        simp only [Option.none_bind]
        constructor
        · intro _
          refine ⟨0, ?_, by simpa using htc⟩
          simp only [List.length_cons]
          omega
        · intro _
          trivial
      | some d =>
        simp only [Option.some_bind, Option.map_eq_none']
        rw [ih ps2]
        constructor
        · rintro ⟨j, hj, hcomb⟩
          refine ⟨j + 1, ?_, by simpa using hcomb⟩
          simp only [List.length_cons]
          omega
        · rintro ⟨i, hi, hcomb⟩
          simp only [List.length_cons] at hi
          cases i with
          | zero =>
            rw [List.getD_cons_zero, List.getD_cons_zero, htc] at hcomb
            exact absurd hcomb (by simp)
          | succ j =>
            exact ⟨j, by omega, by simpa using hcomb⟩

lemma interpParamsT_some_spec {K : Type} [Field K] (alpha : K) :
    ∀ (ps1 ps2 ps : List (Param K)), interpParamsT alpha ps1 ps2 = some ps →
      ps.length = ps1.length ∧
      (∀ i, i < min ps1.length ps2.length →
        ∃ d, tensorComb alpha (ps1.getD i ⟨[], true⟩).data (ps2.getD i ⟨[], true⟩).data =
            some d ∧
          ps.getD i ⟨[], true⟩ = { data := d, requires_grad := false }) ∧
      (∀ i, min ps1.length ps2.length ≤ i → ps.getD i ⟨[], true⟩ = ps1.getD i ⟨[], true⟩) := by
  intro ps1
  induction ps1 with
  | nil =>
    intro ps2 ps hps
    simp only [interpParamsT, Option.some.injEq] at hps
    subst hps
    exact ⟨rfl, by simp, fun i _ => rfl⟩
  | cons p1 ps1 ih =>
    intro ps2 ps hps
    cases ps2 with
    | nil =>
      simp only [interpParamsT, Option.some.injEq] at hps
      subst hps
      exact ⟨rfl, by simp, fun i _ => rfl⟩
    | cons p2 ps2 =>
      rw [interpParamsT] at hps
      cases htc : tensorComb alpha p1.data p2.data with
      | none => rw [htc] at hps; simp at hps
      | some d =>
        rw [htc] at hps
        simp only [Option.some_bind] at hps
        cases hrec : interpParamsT alpha ps1 ps2 with
        | none => rw [hrec] at hps; simp at hps
        | some rest =>
          rw [hrec] at hps
          simp only [Option.map_some', Option.some.injEq] at hps
          subst hps
          obtain ⟨hlen, hlt, hge⟩ := ih ps2 rest hrec
          refine ⟨by simp [hlen], ?_, ?_⟩
          · intro i hi
            simp only [List.length_cons] at hi
            cases i with
            | zero => exact ⟨d, by simpa using htc, by simp⟩
            | succ j =>
              obtain ⟨dj, hdj, hpj⟩ := hlt j (by omega)
              exact ⟨dj, by simpa using hdj, by simpa using hpj⟩
          · intro i hi
            simp only [List.length_cons] at hi
            cases i with
            | zero => exact absurd hi (by omega)
            | succ j => simpa using hge j (by omega)

lemma interpParamsT_eq_of_sizes_eq {K : Type} [Field K] (alpha : K) :
    ∀ ps1 ps2 : List (Param K),
      (∀ i, i < min ps1.length ps2.length →
        (ps1.getD i ⟨[], true⟩).data.length = (ps2.getD i ⟨[], true⟩).data.length) →
      interpParamsT alpha ps1 ps2 = some (interpParams alpha ps1 ps2) := by
  intro ps1
  induction ps1 with
  | nil => intro ps2 _; rfl
  | cons p1 ps1 ih =>
    intro ps2 h
    cases ps2 with
    | nil => rfl
    | cons p2 ps2 =>
      simp only [List.length_cons] at h
      have h0 := h 0 (by omega)
      rw [interpParamsT, interpParams]
      have htc : tensorComb alpha p1.data p2.data =
          some (List.zipWith (fun x1 x2 => alpha * x1 + (1 - alpha) * x2) p1.data p2.data) := by
        unfold tensorComb
        rw [if_pos (by simpa using h0)]
      rw [htc, Option.some_bind, ih ps2 (fun j hj => by simpa using h (j + 1) (by omega))]
      rfl

lemma linspace_length {K : Type} [Field K] (s e : K) (n : ℕ) :
    (linspace s e n).length = n := by
  unfold linspace
  split
  next h => rw [h]; rfl
  next h => rw [List.length_map, List.length_range]

lemma linspace_getD {K : Type} [Field K] (s e : K) (n i : ℕ) (hn : n ≠ 1) (hi : i < n) :
    (linspace s e n).getD i 0 = s + (i : K) * ((e - s) / ((n - 1 : ℕ) : K)) := by
  have hlen : i < ((List.range n).map
      (fun j : ℕ => s + (j : K) * ((e - s) / ((n - 1 : ℕ) : K)))).length := by
    rw [List.length_map, List.length_range]; exact hi
  rw [linspace, if_neg hn, List.getD_eq_getElem _ _ hlen, List.getElem_map, List.getElem_range]

lemma sizeSum_nil {ι : Type} : sizeSum ([] : List (List ι × List ℕ)) = 0 := rfl

lemma sizeSum_cons {ι : Type} (b : List ι × List ℕ) (l : List (List ι × List ℕ)) :
    sizeSum (b :: l) = b.2.length + sizeSum l := by
  simp [sizeSum]

lemma testLoop_eq_procBatches {ι K : Type} [LinearOrderedField K] (model : ι → List K)
    (criterion : List (List K) → List ℕ → K) (samples : ℤ)
    (loader : List (List ι × List ℕ)) :
    ∀ (tl : K) (ta t : ℕ),
      testLoop model criterion samples loader tl ta t =
        (tl + lossSum model criterion (procBatches samples t loader),
         ta + accSum model (procBatches samples t loader),
         t + sizeSum (procBatches samples t loader)) := by
  induction loader with
  | nil =>
    intro tl ta t
    simp [testLoop, procBatches, lossSum, accSum, sizeSum]
  | cons b rest ih =>
    intro tl ta t
    obtain ⟨inputs, targets⟩ := b
    by_cases h : samples ≤ (t : ℤ)
    · simp [testLoop, procBatches, h, lossSum, accSum, sizeSum]
    · simp only [testLoop, procBatches, if_neg h]
      rw [ih]
      simp only [lossSum, accSum, sizeSum, List.map_cons, List.sum_cons, Prod.mk.injEq]
      refine ⟨by ring, by omega, by omega⟩

lemma test_eq_closed {ι K : Type} [LinearOrderedField K] (loader : List (List ι × List ℕ))
    (model : ι → List K) (criterion : List (List K) → List ℕ → K) (samples : ℤ) :
    test loader model criterion samples =
      if sizeSum (procBatches samples 0 loader) = 0 then none
      else
        some (lossSum model criterion (procBatches samples 0 loader) /
                (sizeSum (procBatches samples 0 loader) : K),
              100 * (accSum model (procBatches samples 0 loader) : K) /
                (sizeSum (procBatches samples 0 loader) : K)) := by
  unfold test
  rw [testLoop_eq_procBatches]
  simp

lemma procBatches_subset {ι : Type} (samples : ℤ) (l : List (List ι × List ℕ)) :
    ∀ t : ℕ, procBatches samples t l ⊆ l := by
  induction l with
  | nil => intro t; simp [procBatches]
  | cons b rest ih =>
    intro t
    by_cases h : samples ≤ (t : ℤ)
    · simp [procBatches, h]
    · rw [procBatches, if_neg h]
      exact List.cons_subset_cons b (ih _)

lemma procBatches_take {ι : Type} (samples : ℤ) (l : List (List ι × List ℕ)) :
    ∀ t : ℕ, procBatches samples t l = l.take (procBatches samples t l).length := by
  induction l with
  | nil => intro t; simp [procBatches]
  | cons b rest ih =>
    intro t
    by_cases h : samples ≤ (t : ℤ)
    · simp [procBatches, h]
    · rw [procBatches, if_neg h]
      simp only [List.length_cons, List.take_succ_cons, List.cons.injEq, true_and]
      exact ih _

lemma procBatches_check {ι : Type} (samples : ℤ) (l : List (List ι × List ℕ)) :
    ∀ (t k : ℕ), k < (procBatches samples t l).length →
      (t : ℤ) + (sizeSum (l.take k) : ℤ) < samples := by
  induction l with
  | nil => intro t k hk; simp [procBatches] at hk
  | cons b rest ih =>
    intro t k hk
    by_cases h : samples ≤ (t : ℤ)
    · rw [procBatches, if_pos h] at hk; simp at hk
    · rw [procBatches, if_neg h] at hk
      cases k with
      | zero =>
        simp only [List.take_zero, sizeSum_nil, Nat.cast_zero, add_zero]
        omega
      | succ k =>
        have hk2 : k < (procBatches samples (t + b.2.length) rest).length := by
          simpa using hk
        have := ih (t + b.2.length) k hk2
        rw [List.take_succ_cons, sizeSum_cons]
        push_cast at this ⊢
        omega

lemma procBatches_stop {ι : Type} (samples : ℤ) (l : List (List ι × List ℕ)) :
    ∀ t : ℕ, (procBatches samples t l).length < l.length →
      samples ≤ (t : ℤ) + (sizeSum (procBatches samples t l) : ℤ) := by
  induction l with
  | nil => intro t ht; simp at ht
  | cons b rest ih =>
    intro t ht
    by_cases h : samples ≤ (t : ℤ)
    · rw [procBatches, if_pos h]
      simpa using h
    · rw [procBatches, if_neg h]
      rw [procBatches, if_neg h] at ht
      have ht2 : (procBatches samples (t + b.2.length) rest).length < rest.length := by
        simpa using ht
      have := ih (t + b.2.length) ht2
      rw [sizeSum_cons]
      push_cast at this ⊢
      omega

lemma procBatches_exhaust {ι : Type} (samples : ℤ) (l : List (List ι × List ℕ)) :
    ∀ t : ℕ, (t : ℤ) + (sizeSum (procBatches samples t l) : ℤ) < samples →
      procBatches samples t l = l := by
  induction l with
  | nil => intro t _; rfl
  | cons b rest ih =>
    intro t hlt
    by_cases h : samples ≤ (t : ℤ)
    · rw [procBatches, if_pos h] at hlt
      simp only [sizeSum_nil, Nat.cast_zero, add_zero] at hlt
      omega
    · rw [procBatches, if_neg h] at hlt ⊢
      rw [sizeSum_cons] at hlt
      push_cast at hlt
      have := ih (t + b.2.length) (by push_cast; omega)
      rw [this]

lemma accuracyTop1_le {K : Type} [LinearOrder K] (output : List (List K)) (target : List ℕ) :
    accuracyTop1 output target ≤ target.length := by
  unfold accuracyTop1
  refine le_trans (List.countP_le_length _) ?_
  rw [List.length_zip]
  exact min_le_right _ _

lemma accSum_le_sizeSum {ι K : Type} [LinearOrderedField K] (model : ι → List K)
    (l : List (List ι × List ℕ)) : accSum model l ≤ sizeSum l := by
  unfold accSum sizeSum
  induction l with
  | nil => simp
  | cons b rest ih =>
    simp only [List.map_cons, List.sum_cons]
    exact Nat.add_le_add (accuracyTop1_le _ _) ih

lemma crossEntropyLoss_nonneg (outputs : List (List ℝ)) (targets : List ℕ)
    (hwf : ∀ p ∈ outputs.zip targets, p.2 < p.1.length) :
    0 ≤ crossEntropyLoss outputs targets := by
  unfold crossEntropyLoss
  refine div_nonneg ?_ (Nat.cast_nonneg _)
  refine List.sum_nonneg ?_
  intro x hx
  simp only [List.mem_map] at hx
  obtain ⟨p, hp, rfl⟩ := hx
  have ht := hwf p hp
  have hmem : p.1.getD p.2 0 ∈ p.1 := by
    rw [List.getD_eq_getElem _ _ ht]
    exact List.getElem_mem ht
  have hexp : Real.exp (p.1.getD p.2 0) ≤ (p.1.map Real.exp).sum := by
    refine List.single_le_sum ?_ _ (List.mem_map_of_mem Real.exp hmem)
    intro x hx
    obtain ⟨y, _, rfl⟩ := List.mem_map.mp hx
    exact (Real.exp_pos y).le
  have hpos : (0 : ℝ) < (p.1.map Real.exp).sum := lt_of_lt_of_le (Real.exp_pos _) hexp
  have hlog : p.1.getD p.2 0 ≤ Real.log ((p.1.map Real.exp).sum) :=
    (Real.le_log_iff_exp_le hpos).mpr hexp
  linarith

lemma sweepAux_spec {ι B : Type} (m1 m2 : Model ι ℝ B)
    (testloader trainloader : List (List ι × List ℕ)) (cap : ℤ)
    (alphas : List ℝ) :
    ∀ r : List ℝ × List ℝ × List ℝ × List ℝ,
      sweepAux m1 m2 testloader trainloader cap alphas = some r →
        r.1.length = alphas.length ∧ r.2.1.length = alphas.length ∧
        r.2.2.1.length = alphas.length ∧ r.2.2.2.length = alphas.length ∧
        ∀ i, i < alphas.length →
          test testloader (Model.apply (interpolate m1 m2 (alphas.getD i 0)))
              crossEntropyLoss cap = some (r.1.getD i 0, r.2.1.getD i 0) ∧
          test trainloader (Model.apply (interpolate m1 m2 (alphas.getD i 0)))
              crossEntropyLoss cap = some (r.2.2.1.getD i 0, r.2.2.2.getD i 0) := by
  induction alphas with
  | nil =>
    intro r hr
    simp only [sweepAux, Option.some.injEq] at hr
    subst hr
    simp
  | cons a rest ih =>
    intro r hr
    simp only [sweepAux, Option.bind_eq_some, Option.some.injEq] at hr
    obtain ⟨te, hte, tr, htr, rr, hrr, hr⟩ := hr
    subst hr
    obtain ⟨h1, h2, h3, h4, h5⟩ := ih rr hrr
    refine ⟨by simpa using h1, by simpa using h2, by simpa using h3, by simpa using h4, ?_⟩
    intro i hi
    cases i with
    | zero =>
      simp only [List.getD_cons_zero]
      exact ⟨by simpa using hte, by simpa using htr⟩
    | succ i =>
      simp only [List.getD_cons_succ]
      exact h5 i (by simpa using hi)

lemma test_unitLoader_run :
    test unitLoader zeroScore crossEntropyLoss 1 = some (0, 100) := by
  norm_num [test, testLoop, unitLoader, zeroScore, crossEntropyLoss, accuracyTop1,
    argmaxIdx, argmaxAux, Real.exp_zero, Real.log_one]

lemma visualize_unit_run :
    visualize zeroModelR zeroModelR unitLoader unitLoader 1 1 =
      some ([0], [100], [0], [100]) := by
  have hl : linspace (-1 : ℝ) 2 1 = [-1] := by simp [linspace]
  unfold visualize
  rw [hl]
  have happ : ∀ a : ℝ, Model.apply (interpolate zeroModelR zeroModelR a) = zeroScore :=
    fun a => rfl
  rw [sweepAux, happ, test_unitLoader_run, sweepAux]
  simp [Option.bind]

/-! Claim theorems. -/

/-- C1: for every coefficient `alpha` (no clamping, values outside `[0, 1]`
included), `interpolate(modelA, modelB, alpha)` returns a model whose
parameter tensors equal `alpha * pA + (1 - alpha) * pB` elementwise at every
parameter index, marks every returned parameter as not requiring gradient
computation, and leaves the parameter values of both source models unchanged
after the call. -/
theorem interpolate_convex_combination {ι K B : Type} [Field K]
    (modelA modelB : Model ι K B) (alpha : K)
    (hn : modelA.params.length = modelB.params.length)
    (hd : ∀ i ∈ List.range modelA.params.length,
      (paramAt modelA i).data.length = (paramAt modelB i).data.length) :
    (interpolate modelA modelB alpha).params.length = modelA.params.length ∧
    (∀ i, i < modelA.params.length → ∀ j, j < (paramAt modelA i).data.length →
      paramVal (interpolate modelA modelB alpha) i j =
        alpha * paramVal modelA i j + (1 - alpha) * paramVal modelB i j) ∧
    (∀ i, i < modelA.params.length →
      (paramAt (interpolate modelA modelB alpha) i).requires_grad = false) ∧
    (interpolateCall modelA modelB alpha).1.1 = modelA ∧
    (interpolateCall modelA modelB alpha).1.2 = modelB := by
  refine ⟨interpParams_length alpha _ _, ?_, ?_, rfl, rfl⟩
  · intro i hi j hj
    have hi2 : i < modelB.params.length := hn ▸ hi
    have hdi := hd i (List.mem_range.mpr hi)
    simp only [paramVal, paramAt] at hdi hj ⊢
    show ((interpParams alpha modelA.params modelB.params).getD i ⟨[], true⟩).data.getD j 0 = _
    rw [interpParams_getD_lt alpha _ _ i hi hi2]
    exact getD_zipWith_comb alpha _ _ j hj (hdi ▸ hj)
  · intro i hi
    have hi2 : i < modelB.params.length := hn ▸ hi
    simp only [paramAt]
    show ((interpParams alpha modelA.params modelB.params).getD i ⟨[], true⟩).requires_grad = false
    rw [interpParams_getD_lt alpha _ _ i hi hi2]

/-- Witness for C1 at the concrete models `mA`, `mB` and the extrapolating
coefficient `alpha = 2`. -/
theorem interpolate_convex_combination_witness :
    (mA.params.length = mB.params.length ∧
      (∀ i ∈ List.range mA.params.length,
        (paramAt mA i).data.length = (paramAt mB i).data.length)) ∧
    ((interpolate mA mB 2).params.length = mA.params.length ∧
      (∀ i, i < mA.params.length → ∀ j, j < (paramAt mA i).data.length →
        paramVal (interpolate mA mB 2) i j =
          2 * paramVal mA i j + (1 - 2) * paramVal mB i j) ∧
      (∀ i, i < mA.params.length →
        (paramAt (interpolate mA mB 2) i).requires_grad = false) ∧
      (interpolateCall mA mB 2).1.1 = mA ∧
      (interpolateCall mA mB 2).1.2 = mB) :=
  ⟨⟨by decide, by decide⟩,
    interpolate_convex_combination mA mB 2 (by decide) (by decide)⟩

/-- C9 (amended): when the two source models have different parameter
counts, `interpolate` pairs parameters positionally and iterates only over
the first `min nA nB` pairs — the count mismatch itself raises no error,
and every parameter of the returned copy beyond the zipped range keeps
`modelA`'s original value — but each zipped pair is combined under torch's
broadcast semantics: the call raises a size-mismatch error exactly when
some zipped pair's tensor sizes are incompatible, and otherwise returns the
copy with the first `min nA nB` pairs combined. -/
theorem interpolate_truncates_positionally {ι K B : Type} [Field K]
    (modelA modelB : Model ι K B) (alpha : K) :
    (interpolateT modelA modelB alpha = none ↔
      ∃ i, i < min modelA.params.length modelB.params.length ∧
        tensorComb alpha (paramAt modelA i).data (paramAt modelB i).data = none) ∧
    ∀ ret, interpolateT modelA modelB alpha = some ret →
      ret.params.length = modelA.params.length ∧
      (∀ i, i < min modelA.params.length modelB.params.length →
        ∃ d, tensorComb alpha (paramAt modelA i).data (paramAt modelB i).data = some d ∧
          paramAt ret i = { data := d, requires_grad := false }) ∧
      (∀ i, min modelA.params.length modelB.params.length ≤ i →
        paramAt ret i = paramAt modelA i) := by
  constructor
  · rw [interpolateT, Option.map_eq_none']
    exact interpParamsT_none_iff alpha modelA.params modelB.params
  · intro ret hret
    rw [interpolateT] at hret
    cases hps : interpParamsT alpha modelA.params modelB.params with
    | none => rw [hps] at hret; simp at hret
    | some ps =>
      rw [hps] at hret
      simp only [Option.map_some', Option.some.injEq] at hret
      subst hret
      exact interpParamsT_some_spec alpha modelA.params modelB.params ps hps

/-- Witness for the amended C9 at the concrete models `mA` (parameters of
sizes `2` and `1`) and `mShort` (a single parameter of size `1`),
coefficient `alpha = 3`: the counts differ, the single zipped pair
broadcasts `mShort`'s size-1 tensor across `mA`'s size-2 tensor giving
`[-17, -11]`, and `mA`'s second parameter is kept unchanged. -/
theorem interpolate_truncates_positionally_witness :
    Option.map (fun m => m.params) (interpolateT mA mShort 3) =
      some [{ data := [-17, -11], requires_grad := false },
            { data := [5], requires_grad := true }] ∧
    ((interpolateT mA mShort 3 = none ↔
      ∃ i, i < min mA.params.length mShort.params.length ∧
        tensorComb 3 (paramAt mA i).data (paramAt mShort i).data = none) ∧
    ∀ ret, interpolateT mA mShort 3 = some ret →
      ret.params.length = mA.params.length ∧
      (∀ i, i < min mA.params.length mShort.params.length →
        ∃ d, tensorComb 3 (paramAt mA i).data (paramAt mShort i).data = some d ∧
          paramAt ret i = { data := d, requires_grad := false }) ∧
      (∀ i, min mA.params.length mShort.params.length ≤ i →
        paramAt ret i = paramAt mA i)) :=
  ⟨by norm_num [interpolateT, interpParamsT, tensorComb, mA, mShort, Param.mk.injEq],
    interpolate_truncates_positionally mA mShort 3⟩

/-- Counterexample to C9 as stated: `mA` and `mWide` have different
parameter counts (`2` vs `1`), and at this input `interpolate` does raise a
structural-mismatch error — the first positional pair has tensors of sizes
`2` and `3`, which torch can neither match elementwise nor broadcast, so
the call aborts with a size-mismatch RuntimeError (`none`) instead of
returning a truncated copy. -/
theorem interpolate_truncates_positionally_counterexample :
    mA.params.length ≠ mWide.params.length ∧
    interpolateT mA mWide 3 = none :=
  ⟨by decide, rfl⟩

/-- C10: the model returned by `interpolate` carries all of `modelA`'s
non-parameter state — its buffers (batch-norm running statistics and the
like) and its forward computation — unchanged from the deep copy of
`modelA`; `modelB` contributes only parameter values, never buffers, so
changing `modelB`'s buffers cannot change the result. -/
theorem interpolate_keeps_modelA_buffers {ι K B : Type} [Field K]
    (modelA modelB : Model ι K B) (alpha : K) (b1 b2 : B) :
    (interpolate modelA modelB alpha).buffers = modelA.buffers ∧
    (interpolate modelA modelB alpha).arch = modelA.arch ∧
    interpolate modelA { modelB with buffers := b1 } alpha =
      interpolate modelA { modelB with buffers := b2 } alpha :=
  ⟨rfl, rfl, rfl⟩

/-- Witness for C10 at the concrete models `mABuf` (buffer state `42`) and
`mBBuf` (buffer state `7`), coefficient `alpha = 5`. -/
theorem interpolate_keeps_modelA_buffers_witness :
    (interpolate mABuf mBBuf 5).buffers = mABuf.buffers ∧
    (interpolate mABuf mBBuf 5).arch = mABuf.arch ∧
    interpolate mABuf { mBBuf with buffers := 0 } 5 =
      interpolate mABuf { mBBuf with buffers := 1 } 5 :=
  interpolate_keeps_modelA_buffers mABuf mBBuf 5 0 1

/-- C4: the sweep's coefficient sequence consists of exactly `N` values
evenly spaced inclusively over `[-1, 2]`: for `N ≥ 2` the first value is
exactly `-1` and the last exactly `2` with the consecutive difference the
constant `3 / (N - 1)` across all indices, and for `N = 1` the single
coefficient is exactly `-1`. -/
theorem linspace_sweep_coefficients {K : Type} [LinearOrderedField K] (N : ℕ) :
    (linspace (-1 : K) 2 N).length = N ∧
    (2 ≤ N →
      (linspace (-1 : K) 2 N).getD 0 0 = -1 ∧
      (linspace (-1 : K) 2 N).getD (N - 1) 0 = 2 ∧
      ∀ i, i + 1 < N →
        (linspace (-1 : K) 2 N).getD (i + 1) 0 - (linspace (-1 : K) 2 N).getD i 0 =
          3 / ((N : K) - 1)) ∧
    (N = 1 → linspace (-1 : K) 2 N = [-1]) := by
  refine ⟨linspace_length _ _ _, ?_, ?_⟩
  · intro hN
    have hn1 : N ≠ 1 := by omega
    have hcast : ((N - 1 : ℕ) : K) = (N : K) - 1 := by
      exact_mod_cast Nat.cast_sub (by omega : 1 ≤ N)
    have h2K : (2 : K) ≤ (N : K) := by exact_mod_cast hN
    have hne : ((N : K) - 1) ≠ 0 := by
      intro hzero
      have : (N : K) = 1 := by linarith
      linarith
    refine ⟨?_, ?_, ?_⟩
    · rw [linspace_getD _ _ _ 0 hn1 (by omega)]
      norm_num
    · rw [linspace_getD _ _ _ (N - 1) hn1 (by omega), hcast]
      field_simp
    · intro i hi
      rw [linspace_getD _ _ _ (i + 1) hn1 hi, linspace_getD _ _ _ i hn1 (by omega), hcast]
      push_cast
      ring
  · intro hN
    subst hN
    rfl

/-- Witness for C4 at the concrete sample count `N = 4` over `ℚ`. -/
theorem linspace_sweep_coefficients_witness :
    (linspace (-1 : ℚ) 2 4).length = 4 ∧
    (2 ≤ 4 →
      (linspace (-1 : ℚ) 2 4).getD 0 0 = -1 ∧
      (linspace (-1 : ℚ) 2 4).getD (4 - 1) 0 = 2 ∧
      ∀ i, i + 1 < 4 →
        (linspace (-1 : ℚ) 2 4).getD (i + 1) 0 - (linspace (-1 : ℚ) 2 4).getD i 0 =
          3 / ((4 : ℚ) - 1)) ∧
    (4 = 1 → linspace (-1 : ℚ) 2 4 = [-1]) :=
  linspace_sweep_coefficients 4

/-- C2: for every loader, model, criterion and cap, when at least one sample
is processed `Evaluator.test` returns as its first component the sum of the
per-batch criterion values over the processed batches divided by the total
number of samples processed, and as its second component
`100 * total_correct_top1 / total_samples`, where the correct count sums,
over the processed batches, the examples whose single highest-scoring class
index equals the target label. -/
theorem test_returns_loop_averages {ι K : Type} [LinearOrderedField K]
    (loader : List (List ι × List ℕ)) (model : ι → List K)
    (criterion : List (List K) → List ℕ → K) (samples : ℤ)
    (h : 0 < sizeSum (procBatches samples 0 loader)) :
    test loader model criterion samples =
      some (lossSum model criterion (procBatches samples 0 loader) /
              (sizeSum (procBatches samples 0 loader) : K),
            100 * (accSum model (procBatches samples 0 loader) : K) /
              (sizeSum (procBatches samples 0 loader) : K)) := by
  rw [test_eq_closed, if_neg (by omega)]

/-- Witness for C2 at a concrete one-batch loader with a constant criterion
value `7` over `ℚ`. -/
theorem test_returns_loop_averages_witness :
    0 < sizeSum (procBatches 1 0 unitLoader) ∧
    test unitLoader (fun _ => [(0 : ℚ)]) (fun _ _ => (7 : ℚ)) 1 =
      some (lossSum (fun _ => [(0 : ℚ)]) (fun _ _ => (7 : ℚ)) (procBatches 1 0 unitLoader) /
              (sizeSum (procBatches 1 0 unitLoader) : ℚ),
            100 * (accSum (fun _ => [(0 : ℚ)]) (procBatches 1 0 unitLoader) : ℚ) /
              (sizeSum (procBatches 1 0 unitLoader) : ℚ)) :=
  ⟨by decide,
    test_returns_loop_averages unitLoader (fun _ => [(0 : ℚ)]) (fun _ _ => (7 : ℚ)) 1 (by decide)⟩

/-- C3 (amended): `Evaluator.test` checks the accumulated sample count
against `sample_cap` before processing each batch and breaks once the count
has already reached or exceeded the cap; as a consequence a batch that
begins processing is processed in full.  The total number of evaluated
samples can fall short of `sample_cap` only when the loader is exhausted
before the cap is reached — the shortfall is then bounded only by the
loader's content, not by one batch — and whenever the loader holds at least
`sample_cap` samples the evaluated total reaches or exceeds the cap. -/
theorem evaluator_cap_boundary {ι K : Type} [LinearOrderedField K]
    (loader : List (List ι × List ℕ)) (model : ι → List K)
    (criterion : List (List K) → List ℕ → K) (samples : ℤ) :
    (∀ k, k < (procBatches samples 0 loader).length →
      (sizeSum (loader.take k) : ℤ) < samples) ∧
    ((procBatches samples 0 loader).length < loader.length →
      samples ≤ (sizeSum (procBatches samples 0 loader) : ℤ)) ∧
    procBatches samples 0 loader = loader.take (procBatches samples 0 loader).length ∧
    (testLoop model criterion samples loader 0 0 0).2.2 =
      sizeSum (procBatches samples 0 loader) ∧
    ((sizeSum (procBatches samples 0 loader) : ℤ) < samples →
      procBatches samples 0 loader = loader) ∧
    (samples ≤ (sizeSum loader : ℤ) →
      samples ≤ (sizeSum (procBatches samples 0 loader) : ℤ)) := by
  refine ⟨?_, ?_, procBatches_take samples loader 0, ?_, ?_, ?_⟩
  · intro k hk
    have := procBatches_check samples loader 0 k hk
    simpa using this
  · intro hlen
    have := procBatches_stop samples loader 0 hlen
    simpa using this
  · rw [testLoop_eq_procBatches]
    simp
  · intro hlt
    exact procBatches_exhaust samples loader 0 (by simpa using hlt)
  · intro hge
    by_contra hcon
    push_neg at hcon
    have hx := procBatches_exhaust samples loader 0 (by simpa using hcon)
    rw [hx] at hcon
    omega

/-- Witness for the amended C3 at a concrete one-batch loader and cap `5`
over `ℚ`. -/
theorem evaluator_cap_boundary_witness :
    (∀ k, k < (procBatches 5 0 unitLoader).length →
      (sizeSum (unitLoader.take k) : ℤ) < 5) ∧
    ((procBatches 5 0 unitLoader).length < unitLoader.length →
      (5 : ℤ) ≤ (sizeSum (procBatches 5 0 unitLoader) : ℤ)) ∧
    procBatches 5 0 unitLoader = unitLoader.take (procBatches 5 0 unitLoader).length ∧
    (testLoop (fun _ => [(0 : ℚ)]) (fun _ _ => (0 : ℚ)) 5 unitLoader 0 0 0).2.2 =
      sizeSum (procBatches 5 0 unitLoader) ∧
    ((sizeSum (procBatches 5 0 unitLoader) : ℤ) < 5 →
      procBatches 5 0 unitLoader = unitLoader) ∧
    ((5 : ℤ) ≤ (sizeSum unitLoader : ℤ) →
      (5 : ℤ) ≤ (sizeSum (procBatches 5 0 unitLoader) : ℤ)) :=
  evaluator_cap_boundary unitLoader (fun _ => [(0 : ℚ)]) (fun _ _ => (0 : ℚ)) 5

/-- Counterexample to C3 as stated: with cap `5` and a loader holding a
single one-sample batch, the evaluated total is `1` — short of the cap by
`4` samples, which exceeds the largest batch size in the loader (`1`) — so
"under-evaluating by up to one batch short of the requested cap" is false at
this input. -/
theorem evaluator_cap_boundary_counterexample :
    (testLoop (fun _ : Unit => [(0 : ℚ)]) (fun _ _ => (0 : ℚ)) 5 unitLoader 0 0 0).2.2 = 1 ∧
    ((testLoop (fun _ : Unit => [(0 : ℚ)]) (fun _ _ => (0 : ℚ)) 5 unitLoader 0 0 0).2.2 : ℤ) < 5 ∧
    ¬ (5 - ((testLoop (fun _ : Unit => [(0 : ℚ)]) (fun _ _ => (0 : ℚ)) 5 unitLoader 0 0 0).2.2 : ℤ) ≤
        (unitLoader.map (fun b => (b.2.length : ℤ))).foldr max 0) := by
  decide

/-- C7: `Evaluator.test` called with `sample_cap ≤ 0` breaks out of the loop
before any batch is evaluated — zero batches are processed and the
accumulators stay `(0, 0, 0)` — and then fails with a division-by-zero
condition when computing the returned mean loss and accuracy (modelled
`none`), rather than silently returning a NaN value. -/
theorem test_nonpositive_cap_division_error {ι K : Type} [LinearOrderedField K]
    (loader : List (List ι × List ℕ)) (model : ι → List K)
    (criterion : List (List K) → List ℕ → K) (samples : ℤ) (h : samples ≤ 0) :
    procBatches samples 0 loader = [] ∧
    testLoop model criterion samples loader 0 0 0 = (0, 0, 0) ∧
    test loader model criterion samples = none := by
  have hempty : procBatches samples 0 loader = [] := by
    cases loader with
    | nil => rfl
    | cons b rest => rw [procBatches, if_pos (by exact_mod_cast h)]
  refine ⟨hempty, ?_, ?_⟩
  · rw [testLoop_eq_procBatches, hempty]
    simp [lossSum, accSum, sizeSum]
  · rw [test_eq_closed, hempty]
    rfl

/-- Witness for C7 at cap `0` and a concrete one-batch loader over `ℚ`. -/
theorem test_nonpositive_cap_division_error_witness :
    (0 : ℤ) ≤ 0 ∧
    (procBatches 0 0 unitLoader = [] ∧
      testLoop (fun _ => [(0 : ℚ)]) (fun _ _ => (0 : ℚ)) 0 unitLoader 0 0 0 = (0, 0, 0) ∧
      test unitLoader (fun _ => [(0 : ℚ)]) (fun _ _ => (0 : ℚ)) 0 = none) :=
  ⟨le_refl 0,
    test_nonpositive_cap_division_error unitLoader (fun _ => [(0 : ℚ)]) (fun _ _ => (0 : ℚ)) 0
      (le_refl 0)⟩

/-- C8: for every non-empty evaluation (at least one sample processed, i.e.
the call returns a value), the accuracy returned by `Evaluator.test` lies in
`[0, 100]`, and the returned loss is nonnegative when the criterion is
cross-entropy; the targets must be valid class indices for the model's
output dimension, as torch requires. -/
theorem test_metrics_bounds {ι : Type} (loader : List (List ι × List ℕ))
    (model : ι → List ℝ) (samples : ℤ) (l a : ℝ)
    (hwf : ∀ b ∈ loader, ∀ p ∈ (b.1.map model).zip b.2, p.2 < p.1.length)
    (h : test loader model crossEntropyLoss samples = some (l, a)) :
    0 ≤ a ∧ a ≤ 100 ∧ 0 ≤ l := by
  rw [test_eq_closed] at h
  by_cases hz : sizeSum (procBatches samples 0 loader) = 0
  · rw [if_pos hz] at h
    exact absurd h (by simp)
  · rw [if_neg hz] at h
    simp only [Option.some.injEq, Prod.mk.injEq] at h
    obtain ⟨hl, ha⟩ := h
    subst hl ha
    have hpos : (0 : ℝ) < (sizeSum (procBatches samples 0 loader) : ℝ) := by
      exact_mod_cast Nat.pos_of_ne_zero hz
    refine ⟨by positivity, ?_, ?_⟩
    · rw [div_le_iff₀ hpos]
      have hle : (accSum model (procBatches samples 0 loader) : ℝ) ≤
          (sizeSum (procBatches samples 0 loader) : ℝ) := by
        exact_mod_cast accSum_le_sizeSum model _
      linarith
    · refine div_nonneg ?_ (le_of_lt hpos)
      unfold lossSum
      refine List.sum_nonneg ?_
      intro x hx
      simp only [List.mem_map] at hx
      obtain ⟨b, hb, rfl⟩ := hx
      exact crossEntropyLoss_nonneg _ _ (hwf b (procBatches_subset samples loader 0 hb))

/-- Witness for C8 at a concrete one-batch loader whose single example has
one logit `0` and target `0`, evaluated with the cross-entropy criterion. -/
theorem test_metrics_bounds_witness :
    (∀ b ∈ unitLoader, ∀ p ∈ (b.1.map zeroScore).zip b.2, p.2 < p.1.length) ∧
    test unitLoader zeroScore crossEntropyLoss 1 = some (0, 100) ∧
    ((0 : ℝ) ≤ 100 ∧ (100 : ℝ) ≤ 100 ∧ (0 : ℝ) ≤ 0) := by
  have hwf : ∀ b ∈ unitLoader, ∀ p ∈ (b.1.map zeroScore).zip b.2, p.2 < p.1.length := by
    intro b hb p hp
    simp only [unitLoader, List.mem_singleton] at hb
    subst hb
    simp only [zeroScore, List.map_cons, List.map_nil, List.zip_cons_cons, List.zip_nil_right,
      List.mem_singleton] at hp
    subst hp
    simp
  exact ⟨hwf, test_unitLoader_run,
    test_metrics_bounds unitLoader zeroScore 1 0 100 hwf test_unitLoader_run⟩

/-- C5: when the sweep completes, the four metric sequences (test loss, test
accuracy, train loss, train accuracy) all have length exactly the requested
number of interpolation samples (the coefficient sequence length), and the
entry at index `i` is produced by evaluating the interpolant built from the
coefficient at index `i`. -/
theorem visualize_sequences_aligned {ι B : Type} (model1 model2 : Model ι ℝ B)
    (testloader trainloader : List (List ι × List ℕ)) (viz_samples : ℕ)
    (test_samples : ℤ) (tl ta trl tra : List ℝ)
    (h : visualize model1 model2 testloader trainloader viz_samples test_samples =
      some (tl, ta, trl, tra)) :
    tl.length = viz_samples ∧ ta.length = viz_samples ∧
    trl.length = viz_samples ∧ tra.length = viz_samples ∧
    ∀ i, i < viz_samples →
      test testloader
          (Model.apply (interpolate model1 model2
            ((linspace (-1 : ℝ) 2 viz_samples).getD i 0)))
          crossEntropyLoss test_samples = some (tl.getD i 0, ta.getD i 0) ∧
      test trainloader
          (Model.apply (interpolate model1 model2
            ((linspace (-1 : ℝ) 2 viz_samples).getD i 0)))
          crossEntropyLoss test_samples = some (trl.getD i 0, tra.getD i 0) := by
  have hs := sweepAux_spec model1 model2 testloader trainloader test_samples
    (linspace (-1) 2 viz_samples) (tl, ta, trl, tra) h
  rw [linspace_length] at hs
  exact hs

/-- Witness for C5 at a one-coefficient sweep of the concrete constant-logit
model. -/
theorem visualize_sequences_aligned_witness :
    visualize zeroModelR zeroModelR unitLoader unitLoader 1 1 =
      some ([0], [100], [0], [100]) ∧
    (([0] : List ℝ).length = 1 ∧ ([100] : List ℝ).length = 1 ∧
      ([0] : List ℝ).length = 1 ∧ ([100] : List ℝ).length = 1 ∧
      ∀ i, i < 1 →
        test unitLoader
            (Model.apply (interpolate zeroModelR zeroModelR
              ((linspace (-1 : ℝ) 2 1).getD i 0)))
            crossEntropyLoss 1 = some (([0] : List ℝ).getD i 0, ([100] : List ℝ).getD i 0) ∧
        test unitLoader
            (Model.apply (interpolate zeroModelR zeroModelR
              ((linspace (-1 : ℝ) 2 1).getD i 0)))
            crossEntropyLoss 1 = some (([0] : List ℝ).getD i 0, ([100] : List ℝ).getD i 0)) :=
  ⟨visualize_unit_run,
    visualize_sequences_aligned zeroModelR zeroModelR unitLoader unitLoader 1 1
      [0] [100] [0] [100] visualize_unit_run⟩

/-- C6: the serialized `raw_arrays` artifact is a mapping with exactly the
keys "test loss", "test accuracy", "train loss", "train accuracy" in source
order, each mapped to a sequence of floats of length equal to the requested
number of interpolation samples, and deserializing it reproduces exactly the
same metric sequences that were plotted on the loss and accuracy charts. -/
theorem raw_arrays_roundtrip {ι B : Type} (model1 model2 : Model ι ℝ B)
    (testloader trainloader : List (List ι × List ℕ)) (viz_samples : ℕ)
    (test_samples : ℤ) (tl ta trl tra : List ℝ)
    (h : visualize model1 model2 testloader trainloader viz_samples test_samples =
      some (tl, ta, trl, tra)) :
    (rawArrays tl ta trl tra).map Prod.fst =
      ["test loss", "test accuracy", "train loss", "train accuracy"] ∧
    (∀ v ∈ (rawArrays tl ta trl tra).map Prod.snd, v.length = viz_samples) ∧
    pickleRoundTrip (rawArrays tl ta trl tra) = rawArrays tl ta trl tra ∧
    (pickleRoundTrip (rawArrays tl ta trl tra)).lookup "train loss" =
      some ((plottedLossCurves (linspace (-1) 2 viz_samples) trl tl).getD 0 ([], [])).2 ∧
    (pickleRoundTrip (rawArrays tl ta trl tra)).lookup "test loss" =
      some ((plottedLossCurves (linspace (-1) 2 viz_samples) trl tl).getD 1 ([], [])).2 ∧
    (pickleRoundTrip (rawArrays tl ta trl tra)).lookup "train accuracy" =
      some ((plottedAccCurves (linspace (-1) 2 viz_samples) tra ta).getD 0 ([], [])).2 ∧
    (pickleRoundTrip (rawArrays tl ta trl tra)).lookup "test accuracy" =
      some ((plottedAccCurves (linspace (-1) 2 viz_samples) tra ta).getD 1 ([], [])).2 := by
  have hs := sweepAux_spec model1 model2 testloader trainloader test_samples
    (linspace (-1) 2 viz_samples) (tl, ta, trl, tra) h
  rw [linspace_length] at hs
  obtain ⟨h1, h2, h3, h4, _⟩ := hs
  refine ⟨rfl, ?_, rfl, rfl, rfl, rfl, rfl⟩
  intro v hv
  simp only [rawArrays, List.map_cons, List.map_nil, List.mem_cons,
    List.not_mem_nil, or_false] at hv
  rcases hv with rfl | rfl | rfl | rfl
  · exact h1
  · exact h2
  · exact h3
  · exact h4

/-- Witness for C6 at a one-coefficient sweep of the concrete constant-logit
model. -/
theorem raw_arrays_roundtrip_witness :
    visualize zeroModelR zeroModelR unitLoader unitLoader 1 1 =
      some ([0], [100], [0], [100]) ∧
    ((rawArrays [0] [100] [0] [100]).map Prod.fst =
      ["test loss", "test accuracy", "train loss", "train accuracy"] ∧
    (∀ v ∈ (rawArrays [0] [100] [0] [100]).map Prod.snd, v.length = 1) ∧
    pickleRoundTrip (rawArrays [0] [100] [0] [100]) = rawArrays [0] [100] [0] [100] ∧
    (pickleRoundTrip (rawArrays [0] [100] [0] [100])).lookup "train loss" =
      some ((plottedLossCurves (linspace (-1) 2 1) [0] [0]).getD 0 ([], [])).2 ∧
    (pickleRoundTrip (rawArrays [0] [100] [0] [100])).lookup "test loss" =
      some ((plottedLossCurves (linspace (-1) 2 1) [0] [0]).getD 1 ([], [])).2 ∧
    (pickleRoundTrip (rawArrays [0] [100] [0] [100])).lookup "train accuracy" =
      some ((plottedAccCurves (linspace (-1) 2 1) [100] [100]).getD 0 ([], [])).2 ∧
    (pickleRoundTrip (rawArrays [0] [100] [0] [100])).lookup "test accuracy" =
      some ((plottedAccCurves (linspace (-1) 2 1) [100] [100]).getD 1 ([], [])).2) :=
  ⟨visualize_unit_run,
    raw_arrays_roundtrip zeroModelR zeroModelR unitLoader unitLoader 1 1
      [0] [100] [0] [100] visualize_unit_run⟩
